import Mathlib

/-!
Verification of the tic-tac-toe repository's project-context snapshot
generator (`scripts/generate-project-context.js`) and the in-browser
resource shim (`src/index.js`).

Strings are modelled as Lean `String` values and JavaScript string
operations act on the underlying `List Char` (`String.data`); JavaScript
`.length` / `.slice` count UTF-16 code units whereas the model counts
code points, which agree on all the concrete material appearing here.
The filesystem is modelled as a tree of named entries; reading a file
(`fs.readFileSync`) yields the content stored in the tree.
-/

/-- js: `a + b` string concatenation. -/
def jsConcat (a b : String) : String := String.mk (a.data ++ b.data)

/-- js: `s.length`. -/
def jsLength (s : String) : Nat := s.data.length

/-- js: `s.slice(0, n)` for `n ≥ 0`. -/
def jsSlice0 (s : String) (n : Nat) : String := String.mk (s.data.take n)

/-- js: `s.toLowerCase()`. -/
def jsToLowerCase (s : String) : String := String.mk (s.data.map Char.toLower)

/-- js: `s.trim()`: strip leading and trailing whitespace. -/
def jsTrim (s : String) : String :=
  String.mk ((s.data.dropWhile Char.isWhitespace).reverse.dropWhile Char.isWhitespace).reverse

/-- `hasSubstr sub l`: does `sub` occur contiguously inside `l`? -/
def hasSubstr (sub : List Char) : List Char → Bool
  | [] => sub.isEmpty
  | c :: rest => List.isPrefixOf sub (c :: rest) || hasSubstr sub rest

/-- js: `s.includes(sub)` (substring containment). -/
def jsIncludes (s sub : String) : Bool := hasSubstr sub.data s.data

/-- js: `s.startsWith(pre)`. -/
def jsStartsWith (s pre : String) : Bool := List.isPrefixOf pre.data s.data

/-- Lexicographic (code-point) order on character lists; `lexLe a b` means
`a ≤ b`.  This models the comparator `(a, b) => a.localeCompare(b)`
returning a non-positive number (collation modelled as code-point order). -/
def lexLe : List Char → List Char → Bool
  | [], _ => true
  | _ :: _, [] => false
  | a :: as, b :: bs =>
    if a.toNat < b.toNat then true
    else if b.toNat < a.toNat then false
    else lexLe as bs

/-- `a ≤ b` for strings, modelling `a.localeCompare(b) <= 0`. -/
def jsStringLe (a b : String) : Bool := lexLe a.data b.data

/-- The suffix of `l` starting at its last `'.'`, if any. -/
def extAfterLastDot : List Char → Option (List Char)
  | [] => none
  | c :: cs =>
    match extAfterLastDot cs with
    | some e => some e
    | none => if c = '.' then some (c :: cs) else none

/-- node: `path.extname(name)` for a basename `name`: the substring from the
last `'.'` to the end, except that a dot in the leading position does not
count (so `".env"` has extension `""`). -/
def jsExtname (name : String) : String :=
  match name.data with
  | [] => ""
  | _ :: rest =>
    match extAfterLastDot rest with
    | some e => String.mk e
    | none => ""

/-- node: `path.basename(p)`: the part after the last `'/'`. -/
def jsBasename (p : String) : String :=
  String.mk (p.data.reverse.takeWhile (fun c => c != '/')).reverse

/-! ## The project file tree -/

/-- A filesystem entry under the project root: a file with its textual
content, or a directory with its child entries. -/
inductive FSEntry where
  | file (name content : String)
  | dir (name : String) (entries : List FSEntry)

/-! ## Generator configuration constants (generate-project-context.js) -/

def IGNORED_DIRS : List String :=
  [".git", "node_modules", "build", "coverage", ".vscode", ".idea"]

def INCLUDED_EXTENSIONS : List String :=
  [".js", ".jsx", ".ts", ".tsx", ".json", ".css", ".md", ".txt", ".html"]

def EXCLUDED_FILES : List String :=
  [".env.local", ".env", "package-lock.json"]

def MAX_FILES : Nat := 120

def MAX_CHARS_PER_FILE : Nat := 12000

def MAX_TOTAL_CHARS : Nat := 500000

/-- A candidate produced by `collectFiles`: the POSIX-style relative path
and the file's content (the source stores `fullPath` and reads the content
later with `fs.readFileSync`; the model carries the tree's content). -/
structure CandidateFile where
  relativePath : String
  content : String
deriving DecidableEq, Repr

mutual
/-- One entry of the generator's `collectFiles` walk.  `pfx` is the
normalized relative path of the enclosing directory (with a trailing `/`,
empty at the project root).  Ignored directories are skipped wholesale;
a file is kept when its (lower-cased) extension is allow-listed, its exact
name is not deny-listed, and it is not inside `public/` except for
`public/index.html`. -/
def collectEntry (pfx : String) : FSEntry → List CandidateFile
  | .file name content =>
    let normalized := jsConcat pfx name
    if !INCLUDED_EXTENSIONS.contains (jsToLowerCase (jsExtname name)) then []
    else if EXCLUDED_FILES.contains name then []
    else if jsStartsWith normalized "public/" && normalized != "public/index.html" then []
    else [⟨normalized, content⟩]
  | .dir name entries =>
    if IGNORED_DIRS.contains name then []
    else collectList (jsConcat pfx (jsConcat name "/")) entries

/-- `collectFiles` over a directory's entry list (the source pushes into an
accumulator; the model returns the list in the same visit order). -/
def collectList (pfx : String) : List FSEntry → List CandidateFile
  | [] => []
  | e :: es => collectEntry pfx e ++ collectList pfx es
end

/-- Insert into a sorted list, before any element not strictly smaller. -/
def insertSorted (le : α → α → Bool) (a : α) : List α → List α
  | [] => [a]
  | b :: bs => if le a b then a :: b :: bs else b :: insertSorted le a bs

/-- Stable insertion sort.  `Array.prototype.sort` is required to be stable
(ES2019) and any two stable sorts by the same total preorder agree, so this
is a faithful model of `files.sort((a, b) => a.localeCompare(b))`. -/
def insertionSort (le : α → α → Bool) : List α → List α
  | [] => []
  | a :: as => insertSorted le a (insertionSort le as)

/-- The generator's comparator on candidates: by `relativePath`. -/
def candLe (a b : CandidateFile) : Bool := jsStringLe a.relativePath b.relativePath

/-- One resource of the emitted snapshot. -/
structure Resource where
  uri : String
  path : String
  name : String
  mimeType : String
  text : String
  truncated : Bool
deriving DecidableEq, Repr

/-- `getMimeType`: a fixed lookup on the lower-cased extension. -/
def getMimeType (filePath : String) : String :=
  let ext := jsToLowerCase (jsExtname (jsBasename filePath))
  if ext = ".json" then "application/json"
  else if ext = ".md" then "text/markdown"
  else if ext = ".css" then "text/css"
  else if ext = ".html" then "text/html"
  else "text/plain"

def NUL : Char := Char.ofNat 0

/-- `isBinaryLike`: js `content.includes("\u0000")`. -/
def isBinaryLike (content : String) : Bool := content.data.contains NUL

/-- The marker appended to a truncated file's text. -/
def TRUNC_MARKER : String := "\n\n/* content truncated */"

/-- Assemble one snapshot resource from a candidate. -/
def mkResource (f : CandidateFile) (text : String) (isTruncated : Bool) : Resource :=
  { uri := jsConcat "file:///" f.relativePath
    path := f.relativePath
    name := jsBasename f.relativePath
    mimeType := getMimeType f.relativePath
    text := text
    truncated := isTruncated }

/-- `cap = Math.min(MAX_CHARS_PER_FILE, Math.max(0, MAX_TOTAL_CHARS - totalChars))`
(`Math.max(0, _)` is Nat subtraction). -/
def capFor (totalChars : Nat) : Nat :=
  min MAX_CHARS_PER_FILE (MAX_TOTAL_CHARS - totalChars)

/-- The text included for a file: the raw content when it fits under `cap`,
otherwise the first `cap` characters with the truncation marker appended. -/
def truncText (content : String) (cap : Nat) : String :=
  if cap < jsLength content then jsConcat (jsSlice0 content cap) TRUNC_MARKER
  else content

/-- The budgeted processing loop of `loadResources`: walk the sorted
candidates carrying `resources.length` (`nRes`) and `totalChars`; stop when
a budget is exhausted, skip binary-like files, cap each file's text at
`capFor totalChars` and truncate with `truncText`. -/
def processFiles : List CandidateFile → Nat → Nat → List Resource
  | [], _, _ => []
  | f :: rest, nRes, totalChars =>
    if MAX_FILES ≤ nRes then []
    else if MAX_TOTAL_CHARS ≤ totalChars then []
    else if isBinaryLike f.content then processFiles rest nRes totalChars
    else if capFor totalChars = 0 then []
    else
      mkResource f (truncText f.content (capFor totalChars))
          (decide (capFor totalChars < jsLength f.content))
        :: processFiles rest (nRes + 1)
            (totalChars + jsLength (truncText f.content (capFor totalChars)))

/-- The candidate list of a generator run, sorted by relative path. -/
def sortedCandidates (root : List FSEntry) : List CandidateFile :=
  insertionSort candLe (collectList "" root)

/-- `loadResources` of the generator: collect, sort, process under the
budgets.  `root` is the entry list of the project root directory. -/
def loadResources (root : List FSEntry) : List Resource :=
  processFiles (sortedCandidates root) 0 0

/-- Sum of the `text` lengths of a resource list. -/
def sumTexts (rs : List Resource) : Nat := (rs.map (fun r => jsLength r.text)).sum

/-- Candidates that survive the binary-content check. -/
def goodFiles (fs : List CandidateFile) : List CandidateFile :=
  fs.filter (fun f => !isBinaryLike f.content)

/-- The number of characters a candidate contributes when the per-file cap
is the only active constraint. -/
def effLen (f : CandidateFile) : Nat :=
  if MAX_CHARS_PER_FILE < jsLength f.content then MAX_CHARS_PER_FILE + jsLength TRUNC_MARKER
  else jsLength f.content

/-- Total characters contributed by the non-binary candidates when the
per-file cap is the only active constraint. -/
def sumEff (fs : List CandidateFile) : Nat := ((goodFiles fs).map effLen).sum

/-! ## The effect of `main` on the tree: writing the output artifact -/

/-- Create or overwrite the file `fname` in a directory's entry list
(model of `fs.writeFileSync` inside one directory). -/
def setFile (fname c : String) : List FSEntry → List FSEntry
  | [] => [.file fname c]
  | .file n c₀ :: rest =>
    if n = fname then .file fname c :: rest else .file n c₀ :: setFile fname c rest
  | e :: rest => e :: setFile fname c rest

/-- Whether the root entry list has a directory named `public`. -/
def hasPublicDir : List FSEntry → Bool
  | [] => false
  | .dir n _ :: rest => n = "public" || hasPublicDir rest
  | _ :: rest => hasPublicDir rest

/-- `main`'s tree effect: `mkdirSync(path.dirname(OUTPUT_FILE), {recursive})`
followed by `writeFileSync(OUTPUT_FILE, c)`, i.e. create or overwrite
`public/project-context.json` under the project root. -/
def writeOutput (root : List FSEntry) (c : String) : List FSEntry :=
  if hasPublicDir root then
    root.map (fun e =>
      match e with
      | .dir n ents => if n = "public" then .dir n (setFile "project-context.json" c ents)
                       else .dir n ents
      | e => e)
  else root ++ [.dir "public" [.file "project-context.json" c]]

/-! ## The resource shim (src/index.js) -/

/-- The artifact as seen by the shim (parsed `project-context.json`);
`generatedAt` is `none` in the fallback context. -/
structure ProjectContext where
  generatedAt : Option String
  summary : String
  resources : List Resource
deriving DecidableEq, Repr

/-- `getFallbackProjectContext()`. -/
def getFallbackProjectContext : ProjectContext :=
  { generatedAt := none
    summary := "No local project context is available."
    resources := [] }

/-- An HTTP response for the artifact fetch: the `ok` flag and the result
of `response.json()` (`none` when the body does not parse). -/
structure HttpResponse where
  ok : Bool
  jsonBody : Option ProjectContext
deriving DecidableEq

/-- The promise chain built on the first call to `loadProjectContext`:
`fetch(...).then(r => { if (!r.ok) throw ...; return r.json(); })
.catch(() => getFallbackProjectContext())`.  A network failure is
`Except.error`; every other outcome is `Except.ok` carrying the response.
The `catch` makes the result total: the model returns a `ProjectContext`
in all cases, never an error. -/
def loadProjectContextOnce (fetchResult : Except Unit HttpResponse) : ProjectContext :=
  let chained : Except Unit ProjectContext :=
    match fetchResult with
    | .error e => .error e
    | .ok response =>
      if !response.ok then .error ()
      else
        match response.jsonBody with
        | some parsed => .ok parsed
        | none => .error ()
  match chained with
  | .ok ctx => ctx
  | .error _ => getFallbackProjectContext

/-- One entry of a `listResources` result: the projection of a resource
taken in `listProjectResources` (no `text` field). -/
structure ResourceListing where
  uri : String
  name : String
  description : String
  mimeType : String
deriving DecidableEq, Repr

/-- The `.map(...)` projection of `listProjectResources`. -/
def projectResourceListing (r : Resource) : ResourceListing :=
  { uri := r.uri
    name := r.name
    description := jsConcat "Project file " r.path
    mimeType := r.mimeType }

/-- The non-empty-query branch of the `listProjectResources` filter:
case-insensitive substring match against `uri`, `path`, or `name`. -/
def matchesQuery (query : String) (r : Resource) : Bool :=
  jsIncludes (jsToLowerCase r.uri) query ||
  jsIncludes (jsToLowerCase r.path) query ||
  jsIncludes (jsToLowerCase r.name) query

/-- `listProjectResources(search)` applied to a loaded context:
`query = (search || "").toLowerCase().trim()`; an empty `query` keeps
every resource (`!query` is true exactly on the empty string). -/
def listProjectResources (ctx : ProjectContext) (search : String) : List ResourceListing :=
  let query := jsTrim (jsToLowerCase search)
  (ctx.resources.filter (fun r => if query = "" then true else matchesQuery query r)).map
    projectResourceListing

/-- One content item of a `getResource` envelope. -/
structure ContentItem where
  uri : String
  mimeType : String
  text : String
deriving DecidableEq, Repr

/-- The single-content-item envelope returned by `getProjectResource`. -/
structure ResourceContents where
  contents : List ContentItem
deriving DecidableEq, Repr

/-- js `a || b` on strings: `b` when `a` is empty (falsy), else `a`. -/
def jsOrString (a b : String) : String := if a = "" then b else a

/-- `getProjectResource(uri)` applied to a loaded context: find the first
resource with exactly this `uri`; absent a match, return the synthetic
not-found payload. -/
def getProjectResource (ctx : ProjectContext) (uri : String) : ResourceContents :=
  match ctx.resources.find? (fun item => item.uri == uri) with
  | none =>
    { contents := [{ uri := uri
                     mimeType := "text/plain"
                     text := jsConcat "Resource not found for uri: " uri }] }
  | some resource =>
    { contents := [{ uri := resource.uri
                     mimeType := jsOrString resource.mimeType "text/plain"
                     text := resource.text }] }

/-- The `project_summary` context helper: the loaded context's summary. -/
def getProjectSummary (ctx : ProjectContext) : String := ctx.summary

/-! ## Session model for the memoized fetch -/

/-- The module-level `let projectContextPromise` of src/index.js:
`none` before the first call, then the settled value. -/
structure ShimState where
  projectContextPromise : Option ProjectContext

/-- The operations the chat integration can invoke; each one awaits
`loadProjectContext()` first. -/
inductive ShimOp where
  | loadContext
  | listResources (search : String)
  | getResource (uri : String)
  | getSummary

/-- The value an operation resolves to. -/
inductive OpOutput where
  | ctxOut (c : ProjectContext)
  | listOut (l : List ResourceListing)
  | resOut (r : ResourceContents)
  | summaryOut (s : String)
deriving DecidableEq

/-- The pure part of each operation, applied to the loaded context. -/
def applyOp : ShimOp → ProjectContext → OpOutput := fun op c =>
  match op with
  | .loadContext => .ctxOut c
  | .listResources s => .listOut (listProjectResources c s)
  | .getResource u => .resOut (getProjectResource c u)
  | .getSummary => .summaryOut (getProjectSummary c)

/-- `loadProjectContext()`: reuse the memoized promise when present,
otherwise run the fetch chain once and store the result.  The returned
`Nat` counts network fetches performed by this call (0 or 1). -/
def ensureContext (fetchResult : Except Unit HttpResponse) (st : ShimState) :
    ProjectContext × ShimState × Nat :=
  match st.projectContextPromise with
  | some c => (c, st, 0)
  | none =>
    let c := loadProjectContextOnce fetchResult
    (c, { projectContextPromise := some c }, 1)

/-- Run a session: execute the operations in order against the shared
memo reference, returning the final state, the total number of network
fetches, and each operation's output. -/
def runOps (fetchResult : Except Unit HttpResponse) :
    ShimState → List ShimOp → ShimState × Nat × List OpOutput
  | st, [] => (st, 0, [])
  | st, op :: ops =>
    let step := ensureContext fetchResult st
    let rest := runOps fetchResult step.2.1 ops
    (rest.1, step.2.2 + rest.2.1, applyOp op step.1 :: rest.2.2)

/-! ## Concrete inputs used in witnesses and counterexamples -/

/-- A 12001-character file content (one over the per-file cap). -/
def bigContent : String := String.mk (List.replicate 12001 'a')

/-- A project tree holding a single over-cap markdown file. -/
def bigTree : List FSEntry := [.file "a.md" bigContent]

/-- 42 file names in ascending order. -/
def names42 : List String := ["c00.md", "c01.md", "c02.md", "c03.md", "c04.md", "c05.md", "c06.md", "c07.md", "c08.md", "c09.md", "c10.md", "c11.md", "c12.md", "c13.md", "c14.md", "c15.md", "c16.md", "c17.md", "c18.md", "c19.md", "c20.md", "c21.md", "c22.md", "c23.md", "c24.md", "c25.md", "c26.md", "c27.md", "c28.md", "c29.md", "c30.md", "c31.md", "c32.md", "c33.md", "c34.md", "c35.md", "c36.md", "c37.md", "c38.md", "c39.md", "c40.md", "c41.md"]

def names41 : List String := names42.dropLast

/-- 42 over-cap files: enough for the running total to cross the total cap. -/
def tree42 : List FSEntry := names42.map (fun n => FSEntry.file n bigContent)

def cands42 : List CandidateFile := names42.map (fun n => ⟨n, bigContent⟩)

def cands41 : List CandidateFile := names41.map (fun n => ⟨n, bigContent⟩)

/-- 121 file names in ascending order (one over the resource-count cap). -/
def names121 : List String := ["d000.md", "d001.md", "d002.md", "d003.md", "d004.md", "d005.md", "d006.md", "d007.md", "d008.md", "d009.md", "d010.md", "d011.md", "d012.md", "d013.md", "d014.md", "d015.md", "d016.md", "d017.md", "d018.md", "d019.md", "d020.md", "d021.md", "d022.md", "d023.md", "d024.md", "d025.md", "d026.md", "d027.md", "d028.md", "d029.md", "d030.md", "d031.md", "d032.md", "d033.md", "d034.md", "d035.md", "d036.md", "d037.md", "d038.md", "d039.md", "d040.md", "d041.md", "d042.md", "d043.md", "d044.md", "d045.md", "d046.md", "d047.md", "d048.md", "d049.md", "d050.md", "d051.md", "d052.md", "d053.md", "d054.md", "d055.md", "d056.md", "d057.md", "d058.md", "d059.md", "d060.md", "d061.md", "d062.md", "d063.md", "d064.md", "d065.md", "d066.md", "d067.md", "d068.md", "d069.md", "d070.md", "d071.md", "d072.md", "d073.md", "d074.md", "d075.md", "d076.md", "d077.md", "d078.md", "d079.md", "d080.md", "d081.md", "d082.md", "d083.md", "d084.md", "d085.md", "d086.md", "d087.md", "d088.md", "d089.md", "d090.md", "d091.md", "d092.md", "d093.md", "d094.md", "d095.md", "d096.md", "d097.md", "d098.md", "d099.md", "d100.md", "d101.md", "d102.md", "d103.md", "d104.md", "d105.md", "d106.md", "d107.md", "d108.md", "d109.md", "d110.md", "d111.md", "d112.md", "d113.md", "d114.md", "d115.md", "d116.md", "d117.md", "d118.md", "d119.md", "d120.md"]

/-- 121 tiny eligible files. -/
def tree121 : List FSEntry := names121.map (fun n => FSEntry.file n "x")

/-- A small tree exercising every exclusion rule plus a binary file. -/
def mixedTree : List FSEntry :=
  [ .file "README.md" "hello",
    .dir "node_modules" [.file "x.js" "junk"],
    .dir "src" [.file "App.js" "app"],
    .file "bin.md" (String.mk ['a', NUL]) ]

/-- A sample resource of a loaded context. -/
def resA : Resource :=
  { uri := "file:///a.md", path := "a.md", name := "a.md",
    mimeType := "text/markdown", text := "alpha content", truncated := false }

/-- A second sample resource. -/
def resB : Resource :=
  { uri := "file:///src/B.js", path := "src/B.js", name := "B.js",
    mimeType := "text/plain", text := "beta content", truncated := false }

/-- A sample loaded context with two resources. -/
def ctxAB : ProjectContext :=
  { generatedAt := some "2024-01-01T00:00:00.000Z",
    summary := "two resources",
    resources := [resA, resB] }

/-! ## Basic lemmas about the string model -/

theorem jsLength_jsConcat (a b : String) :
    jsLength (jsConcat a b) = jsLength a + jsLength b := by
  simp [jsLength, jsConcat]

theorem jsLength_jsSlice0 (s : String) (n : Nat) :
    jsLength (jsSlice0 s n) = min n (jsLength s) := by
  simp [jsLength, jsSlice0]

theorem jsLength_TRUNC_MARKER : jsLength TRUNC_MARKER = 25 := rfl

theorem jsLength_truncText_le (c : String) (cap : Nat) :
    jsLength (truncText c cap) ≤ cap + jsLength TRUNC_MARKER := by
  by_cases h : cap < jsLength c
  · simp only [truncText, if_pos h, jsLength_jsConcat, jsLength_jsSlice0]
    have := Nat.min_le_left cap (jsLength c)
    omega
  · simp only [truncText, if_neg h]
    have := Nat.le_of_not_lt h
    omega

theorem capFor_le : ∀ t, capFor t ≤ MAX_CHARS_PER_FILE := fun t =>
  Nat.min_le_left _ _

theorem contains_replicate_false (n : Nat) (a b : Char) (h : (b == a) = false) :
    (List.replicate n a).contains b = false := by
  induction n with
  | zero => rfl
  | succ k ih =>
    have hne : b ≠ a := by simpa using h
    simp [List.replicate_succ, List.contains_cons, hne, ih]

theorem isBinaryLike_bigContent : isBinaryLike bigContent = false := by
  show (List.replicate 12001 'a').contains NUL = false
  exact contains_replicate_false _ _ _ (by decide)

theorem jsLength_bigContent : jsLength bigContent = 12001 := by
  show (List.replicate 12001 'a').length = 12001
  exact List.length_replicate 12001 'a'

/-- Unfold one accepting step of `processFiles`. -/
theorem processFiles_cons_add (f : CandidateFile) (rest : List CandidateFile) (n t : Nat)
    (hn : n < MAX_FILES) (ht : t < MAX_TOTAL_CHARS) (hbin : isBinaryLike f.content = false)
    (hcap : capFor t ≠ 0) :
    processFiles (f :: rest) n t
      = mkResource f (truncText f.content (capFor t)) (decide (capFor t < jsLength f.content))
          :: processFiles rest (n + 1) (t + jsLength (truncText f.content (capFor t))) := by
  simp only [processFiles]
  rw [if_neg (Nat.not_le.mpr hn), if_neg (Nat.not_le.mpr ht),
    if_neg (by simp [hbin]), if_neg hcap]

/-- Unfold one binary-skipping step of `processFiles`. -/
theorem processFiles_cons_skip (f : CandidateFile) (rest : List CandidateFile) (n t : Nat)
    (hn : n < MAX_FILES) (ht : t < MAX_TOTAL_CHARS) (hbin : isBinaryLike f.content = true) :
    processFiles (f :: rest) n t = processFiles rest n t := by
  simp only [processFiles]
  rw [if_neg (Nat.not_le.mpr hn), if_neg (Nat.not_le.mpr ht), if_pos hbin]

/-! ## Per-file length bound (C1) -/

theorem processFiles_text_le (fs : List CandidateFile) :
    ∀ n t r, r ∈ processFiles fs n t →
      jsLength r.text ≤ MAX_CHARS_PER_FILE + jsLength TRUNC_MARKER := by
  induction fs with
  | nil => intro n t r hr; simp [processFiles] at hr
  | cons f rest ih =>
    intro n t r hr
    simp only [processFiles] at hr
    split at hr
    · simp at hr
    split at hr
    · simp at hr
    split at hr
    · exact ih _ _ _ hr
    split at hr
    · simp at hr
    rcases List.mem_cons.mp hr with h | h
    · subst h
      simp only [mkResource]
      calc jsLength (truncText f.content (capFor t))
          ≤ capFor t + jsLength TRUNC_MARKER := jsLength_truncText_le _ _
        _ ≤ MAX_CHARS_PER_FILE + jsLength TRUNC_MARKER :=
            Nat.add_le_add_right (capFor_le t) _
    · exact ih _ _ _ h

/-- C1 (amended): in any snapshot produced by the generator, every
resource's `text` has length at most `MAX_CHARS_PER_FILE` plus the length
of the truncation marker (12000 + 25).  The bound `MAX_CHARS_PER_FILE`
alone is violated when a file is truncated, because the marker is appended
after the slice to the cap. -/
theorem loadResources_text_within_cap_plus_marker (root : List FSEntry) (r : Resource)
    (hr : r ∈ loadResources root) :
    jsLength r.text ≤ MAX_CHARS_PER_FILE + jsLength TRUNC_MARKER :=
  processFiles_text_le _ _ _ _ hr

/-- Witness for C1's amended bound at a concrete one-file tree. -/
theorem loadResources_text_within_cap_plus_marker_witness :
    ∃ r, r ∈ loadResources [FSEntry.file "w.md" "hello"] ∧
      jsLength r.text ≤ MAX_CHARS_PER_FILE + jsLength TRUNC_MARKER := by
  have hmem : mkResource ⟨"w.md", "hello"⟩ "hello" false
      ∈ loadResources [FSEntry.file "w.md" "hello"] := by decide
  exact ⟨_, hmem, loadResources_text_within_cap_plus_marker _ _ hmem⟩

/-- C1 counterexample: a single 12001-character markdown file produces a
resource whose text is 12025 characters long, strictly above
`MAX_CHARS_PER_FILE` — the claimed per-file bound fails once the
truncation marker is appended. -/
theorem loadResources_text_exceeds_per_file_cap :
    ∃ r, r ∈ loadResources bigTree ∧ MAX_CHARS_PER_FILE < jsLength r.text := by
  have hcands : sortedCandidates bigTree = [⟨"a.md", bigContent⟩] := rfl
  have hstep := processFiles_cons_add ⟨"a.md", bigContent⟩ [] 0 0
    (by decide) (by decide) isBinaryLike_bigContent (by decide)
  have hres : loadResources bigTree
      = [mkResource ⟨"a.md", bigContent⟩ (truncText bigContent (capFor 0))
          (decide (capFor 0 < jsLength bigContent))] := by
    rw [loadResources, hcands, hstep]
    simp [processFiles]
  refine ⟨_, by rw [hres]; exact List.mem_singleton.mpr rfl, ?_⟩
  have hcap0 : capFor 0 = 12000 := by decide
  simp only [mkResource]
  rw [hcap0, truncText, if_pos (by rw [jsLength_bigContent]; norm_num)]
  rw [jsLength_jsConcat, jsLength_jsSlice0, jsLength_bigContent, jsLength_TRUNC_MARKER]
  norm_num [MAX_CHARS_PER_FILE]

/-! ## Total length bound (C2) -/

theorem sumTexts_nil : sumTexts [] = 0 := rfl

theorem sumTexts_cons (r : Resource) (rs : List Resource) :
    sumTexts (r :: rs) = jsLength r.text + sumTexts rs := by
  simp [sumTexts]

/-- Once the running total has reached the cap, no further file is added. -/
theorem processFiles_stop (fs : List CandidateFile) (n t : Nat) (ht : MAX_TOTAL_CHARS ≤ t) :
    processFiles fs n t = [] := by
  cases fs with
  | nil => rfl
  | cons f rest =>
    simp only [processFiles]
    split <;> simp [ht]

theorem processFiles_total_le (fs : List CandidateFile) :
    ∀ n t, t < MAX_TOTAL_CHARS →
      t + sumTexts (processFiles fs n t) ≤ MAX_TOTAL_CHARS + jsLength TRUNC_MARKER := by
  induction fs with
  | nil => intro n t ht; simp [processFiles, sumTexts]; omega
  | cons f rest ih =>
    intro n t ht
    simp only [processFiles]
    split
    · simp [sumTexts]; omega
    split
    · simp [sumTexts]; omega
    split
    · exact ih n t ht
    split
    · simp [sumTexts]; omega
    rw [sumTexts_cons]
    simp only [mkResource]
    have hL : jsLength (truncText f.content (capFor t))
        ≤ (MAX_TOTAL_CHARS - t) + jsLength TRUNC_MARKER :=
      le_trans (jsLength_truncText_le _ _) (Nat.add_le_add_right (Nat.min_le_right _ _) _)
    by_cases h2 : t + jsLength (truncText f.content (capFor t)) < MAX_TOTAL_CHARS
    · have := ih (n + 1) _ h2
      omega
    · rw [processFiles_stop _ _ _ (Nat.not_lt.mp h2), sumTexts_nil]
      omega

/-- C2 (amended): the sum of all resource text lengths in a generated
snapshot is at most `MAX_TOTAL_CHARS` plus the length of the truncation
marker (500000 + 25), and once the running total has reached
`MAX_TOTAL_CHARS` no further file is added.  The bound `MAX_TOTAL_CHARS`
alone is violated when the last included file is truncated against the
remaining budget (see the counterexample). -/
theorem loadResources_total_within_cap_plus_marker (root : List FSEntry) :
    sumTexts (loadResources root) ≤ MAX_TOTAL_CHARS + jsLength TRUNC_MARKER ∧
    (∀ fs n t, MAX_TOTAL_CHARS ≤ t → processFiles fs n t = []) := by
  constructor
  · have h := processFiles_total_le (sortedCandidates root) 0 0 (by decide)
    simpa [loadResources] using h
  · exact fun fs n t ht => processFiles_stop fs n t ht

/-- Witness for C2's amended statement at concrete inputs. -/
theorem loadResources_total_within_cap_plus_marker_witness :
    sumTexts (loadResources [FSEntry.file "w.md" "hello"])
        ≤ MAX_TOTAL_CHARS + jsLength TRUNC_MARKER ∧
    processFiles [⟨"w.md", "hello"⟩] 0 MAX_TOTAL_CHARS = [] :=
  ⟨(loadResources_total_within_cap_plus_marker [FSEntry.file "w.md" "hello"]).1,
   (loadResources_total_within_cap_plus_marker [FSEntry.file "w.md" "hello"]).2
     [⟨"w.md", "hello"⟩] 0 MAX_TOTAL_CHARS (Nat.le_refl _)⟩

/-- Processing a block of 12001-character files under both budgets adds
exactly 12025 characters per file. -/
theorem sumTexts_processFiles_big (fs gs : List CandidateFile) :
    ∀ n t, (∀ f ∈ fs, f.content = bigContent) →
      n + fs.length ≤ MAX_FILES → t + 12025 * fs.length ≤ MAX_TOTAL_CHARS →
      sumTexts (processFiles (fs ++ gs) n t)
        = 12025 * fs.length
          + sumTexts (processFiles gs (n + fs.length) (t + 12025 * fs.length)) := by
  induction fs with
  | nil => intro n t _ _ _; simp
  | cons f fs ih =>
    intro n t hc hn ht
    have hfc : f.content = bigContent := hc f (List.mem_cons_self _ _)
    have hlen : jsLength f.content = 12001 := by rw [hfc]; exact jsLength_bigContent
    have hbin : isBinaryLike f.content = false := by rw [hfc]; exact isBinaryLike_bigContent
    rw [List.length_cons] at hn ht ⊢
    have hn' : n < MAX_FILES := by omega
    have ht' : t < MAX_TOTAL_CHARS := by omega
    have hT : (MAX_TOTAL_CHARS : Nat) = 500000 := rfl
    have hC : (MAX_CHARS_PER_FILE : Nat) = 12000 := rfl
    have hcap : capFor t = 12000 := by
      have ht2 : t + 12025 * (fs.length + 1) ≤ 500000 := by rw [hT] at ht; exact ht
      rw [capFor, hC, hT]
      omega
    have htrunc : capFor t < jsLength f.content := by rw [hcap, hlen]; norm_num
    have hL : jsLength (truncText f.content (capFor t)) = 12025 := by
      rw [truncText, if_pos htrunc, jsLength_jsConcat, jsLength_jsSlice0, hlen, hcap,
        jsLength_TRUNC_MARKER]
      norm_num
    rw [List.cons_append,
      processFiles_cons_add _ _ _ _ hn' ht' hbin (by rw [hcap]; norm_num),
      sumTexts_cons]
    simp only [mkResource]
    rw [hL]
    have hrec := ih (n + 1) (t + 12025) (fun g hg => hc g (List.mem_cons_of_mem _ hg))
      (by omega) (by omega)
    rw [hrec]
    have e1 : n + 1 + fs.length = n + (fs.length + 1) := by omega
    have e2 : t + 12025 + 12025 * fs.length = t + 12025 * (fs.length + 1) := by ring
    rw [e1, e2]
    ring

set_option maxRecDepth 2000 in
/-- C2 counterexample: on a tree of 42 files of 12001 characters each, the
generator's total emitted text is 500025 characters, strictly above
`MAX_TOTAL_CHARS` — the last included file is truncated against the
remaining budget and the appended marker pushes the sum over the cap. -/
theorem loadResources_total_exceeds_total_cap :
    MAX_TOTAL_CHARS < sumTexts (loadResources tree42) := by
  have hcands : sortedCandidates tree42 = cands41 ++ [⟨"c41.md", bigContent⟩] := rfl
  have hmem : ∀ f ∈ cands41, f.content = bigContent := by
    intro f hf
    obtain ⟨nm, _, rfl⟩ := List.mem_map.mp hf
    rfl
  have hlen41 : cands41.length = 41 := rfl
  have hmain := sumTexts_processFiles_big cands41 [⟨"c41.md", bigContent⟩] 0 0 hmem
      (by rw [hlen41]; decide) (by rw [hlen41]; decide)
  rw [loadResources, hcands, hmain, hlen41]
  have e1 : 0 + 41 = 41 := rfl
  have e2 : 0 + 12025 * 41 = 493025 := rfl
  rw [e1, e2]
  have hstep := processFiles_cons_add (⟨"c41.md", bigContent⟩ : CandidateFile) [] 41 493025
    (by decide) (by decide) isBinaryLike_bigContent (by decide)
  rw [hstep]
  rw [sumTexts_cons]
  simp only [mkResource]
  have hcap : capFor 493025 = 6975 := by decide
  rw [hcap, truncText, if_pos (by rw [jsLength_bigContent]; norm_num)]
  rw [jsLength_jsConcat, jsLength_jsSlice0, jsLength_bigContent, jsLength_TRUNC_MARKER]
  simp only [processFiles, sumTexts_nil]
  norm_num [MAX_TOTAL_CHARS]

/-! ## Completeness of the emitted path set (C3) -/

theorem processFiles_paths_of_budget (fs : List CandidateFile) :
    ∀ n t, n + (goodFiles fs).length ≤ MAX_FILES → t + sumEff fs < MAX_TOTAL_CHARS →
      (processFiles fs n t).map (fun r => r.path)
        = (goodFiles fs).map (fun f => f.relativePath) := by
  induction fs with
  | nil => intro n t _ _; simp [processFiles, goodFiles]
  | cons f rest ih =>
    intro n t hn ht
    by_cases hn120 : MAX_FILES ≤ n
    · have hg0 : (goodFiles (f :: rest)).length = 0 := by omega
      have hgnil : goodFiles (f :: rest) = [] := List.length_eq_zero.mp hg0
      simp only [processFiles, if_pos hn120]
      simp [hgnil]
    have hn' : n < MAX_FILES := Nat.lt_of_not_le hn120
    by_cases hbin : isBinaryLike f.content = true
    · have hg : goodFiles (f :: rest) = goodFiles rest := by
        simp [goodFiles, List.filter_cons, hbin]
      have hs : sumEff (f :: rest) = sumEff rest := by simp [sumEff, hg]
      have ht' : t < MAX_TOTAL_CHARS := by omega
      rw [processFiles_cons_skip f rest n t hn' ht' hbin, hg]
      rw [hg] at hn
      rw [hs] at ht
      exact ih n t hn ht
    have hbin' : isBinaryLike f.content = false := by simpa using hbin
    have hg : goodFiles (f :: rest) = f :: goodFiles rest := by
      simp [goodFiles, List.filter_cons, hbin']
    have hs : sumEff (f :: rest) = effLen f + sumEff rest := by
      simp [sumEff, hg]
    rw [hs] at ht
    rw [hg, List.length_cons] at hn
    have ht' : t < MAX_TOTAL_CHARS := by omega
    have hLtext : jsLength (truncText f.content (capFor t)) = effLen f := by
      by_cases hbig : MAX_CHARS_PER_FILE < jsLength f.content
      · have heq : effLen f = MAX_CHARS_PER_FILE + jsLength TRUNC_MARKER := by
          rw [effLen, if_pos hbig]
        have hcap : capFor t = MAX_CHARS_PER_FILE := by
          rw [capFor]
          exact Nat.min_eq_left (by omega)
        rw [truncText, if_pos (by rw [hcap]; exact hbig), jsLength_jsConcat,
          jsLength_jsSlice0, hcap, heq, Nat.min_eq_left (Nat.le_of_lt hbig)]
      · have heq : effLen f = jsLength f.content := by rw [effLen, if_neg hbig]
        have hfit : jsLength f.content ≤ capFor t := by
          rw [capFor]
          exact Nat.le_min.mpr ⟨Nat.le_of_not_lt hbig, by omega⟩
        rw [truncText, if_neg (Nat.not_lt.mpr hfit), heq]
    have hcapne : capFor t ≠ 0 := by
      have hCpos : 0 < MAX_CHARS_PER_FILE := by decide
      rw [capFor]
      omega
    rw [processFiles_cons_add f rest n t hn' ht' hbin' hcapne, List.map_cons]
    simp only [mkResource]
    rw [hg, List.map_cons]
    congr 1
    rw [hLtext]
    exact ih (n + 1) (t + effLen f) (by omega) (by omega)

/-- C3 (amended): provided neither budget is exhausted — at most
`MAX_FILES` eligible non-binary files, and total effective text below
`MAX_TOTAL_CHARS` — the snapshot's `path` sequence is exactly the sorted
sequence of eligible relative paths minus the binary-like files.  Without
the budget proviso the claim fails (see the counterexample). -/
theorem loadResources_paths_complete (root : List FSEntry)
    (hn : (goodFiles (sortedCandidates root)).length ≤ MAX_FILES)
    (ht : sumEff (sortedCandidates root) < MAX_TOTAL_CHARS) :
    (loadResources root).map (fun r => r.path)
      = (goodFiles (sortedCandidates root)).map (fun f => f.relativePath) := by
  have h := processFiles_paths_of_budget (sortedCandidates root) 0 0 (by omega) (by omega)
  simpa [loadResources] using h

/-- Witness for C3's amended statement: a tree with an ignored directory,
eligible files and a binary-like file. -/
theorem loadResources_paths_complete_witness :
    (goodFiles (sortedCandidates mixedTree)).length ≤ MAX_FILES ∧
    sumEff (sortedCandidates mixedTree) < MAX_TOTAL_CHARS ∧
    (loadResources mixedTree).map (fun r => r.path)
      = (goodFiles (sortedCandidates mixedTree)).map (fun f => f.relativePath) :=
  ⟨by decide, by decide, loadResources_paths_complete mixedTree (by decide) (by decide)⟩

set_option maxRecDepth 10000 in
/-- C3 counterexample: with 121 eligible one-character files, the file
`d120.md` is eligible and non-binary yet absent from the snapshot, because
the resource-count budget (`MAX_FILES = 120`) stops the run first. -/
theorem loadResources_misses_eligible_file :
    (∃ f ∈ sortedCandidates tree121,
        f.relativePath = "d120.md" ∧ isBinaryLike f.content = false) ∧
    "d120.md" ∉ (loadResources tree121).map (fun r => r.path) := by
  constructor
  · decide
  · decide

/-! ## Sortedness of the snapshot (C4) -/

theorem lexLe_total (as : List Char) : ∀ bs, lexLe as bs = true ∨ lexLe bs as = true := by
  induction as with
  | nil => intro bs; exact Or.inl rfl
  | cons a as ih =>
    intro bs
    cases bs with
    | nil => exact Or.inr rfl
    | cons b bs =>
      by_cases h1 : a.toNat < b.toNat
      · exact Or.inl (by simp [lexLe, h1])
      by_cases h2 : b.toNat < a.toNat
      · exact Or.inr (by simp [lexLe, h2])
      rcases ih bs with h | h
      · exact Or.inl (by simp [lexLe, h1, h2, h])
      · exact Or.inr (by simp [lexLe, h1, h2, h])

theorem lexLe_trans (as : List Char) :
    ∀ bs cs, lexLe as bs = true → lexLe bs cs = true → lexLe as cs = true := by
  induction as with
  | nil => intro bs cs _ _; rfl
  | cons a as ih =>
    intro bs cs hab hbc
    cases bs with
    | nil => simp [lexLe] at hab
    | cons b bs =>
      cases cs with
      | nil => simp [lexLe] at hbc
      | cons c cs =>
        simp only [lexLe] at hab hbc ⊢
        split_ifs at hab hbc ⊢ <;>
          first
          | rfl
          | exact absurd hab Bool.false_ne_true
          | exact absurd hbc Bool.false_ne_true
          | exact ih bs cs hab hbc
          | (exfalso; omega)

theorem candLe_total (a b : CandidateFile) : candLe a b = true ∨ candLe b a = true :=
  lexLe_total _ _

theorem candLe_trans (a b c : CandidateFile) (h1 : candLe a b = true) (h2 : candLe b c = true) :
    candLe a c = true :=
  lexLe_trans _ _ _ h1 h2

theorem mem_insertSorted (le : α → α → Bool) (a x : α) (l : List α) :
    x ∈ insertSorted le a l ↔ x = a ∨ x ∈ l := by
  induction l with
  | nil => simp [insertSorted]
  | cons b bs ih =>
    by_cases h : le a b
    · rw [insertSorted, if_pos h]
      simp [List.mem_cons]
    · rw [insertSorted, if_neg h]
      simp only [List.mem_cons, ih]
      tauto

theorem pairwise_insertSorted (le : α → α → Bool) (R : α → α → Prop)
    (himp : ∀ x y, le x y = true → R x y)
    (htot : ∀ x y, le x y = true ∨ le y x = true)
    (htrans : ∀ x y z, R x y → R y z → R x z)
    (a : α) (l : List α) (hl : l.Pairwise R) :
    (insertSorted le a l).Pairwise R := by
  induction l with
  | nil => simp [insertSorted]
  | cons b bs ih =>
    rcases List.pairwise_cons.mp hl with ⟨hb, hbs⟩
    by_cases h : le a b = true
    · rw [insertSorted, if_pos h]
      refine List.pairwise_cons.mpr ⟨?_, hl⟩
      intro x hx
      rcases List.mem_cons.mp hx with rfl | hx
      · exact himp _ _ h
      · exact htrans _ _ _ (himp _ _ h) (hb x hx)
    · rw [insertSorted, if_neg h]
      refine List.pairwise_cons.mpr ⟨?_, ih hbs⟩
      intro x hx
      rcases (mem_insertSorted le a x bs).mp hx with rfl | hx
      · have hba : le b x = true := by
          rcases htot x b with h1 | h1
          · exact absurd h1 h
          · exact h1
        exact himp _ _ hba
      · exact hb x hx

theorem pairwise_insertionSort (le : α → α → Bool) (R : α → α → Prop)
    (himp : ∀ x y, le x y = true → R x y)
    (htot : ∀ x y, le x y = true ∨ le y x = true)
    (htrans : ∀ x y z, R x y → R y z → R x z)
    (l : List α) :
    (insertionSort le l).Pairwise R := by
  induction l with
  | nil => simp [insertionSort]
  | cons a as ih =>
    rw [insertionSort]
    exact pairwise_insertSorted le R himp htot htrans a _ ih

theorem sortedCandidates_pairwise (root : List FSEntry) :
    (sortedCandidates root).Pairwise (fun a b => candLe a b = true) :=
  pairwise_insertionSort candLe _ (fun _ _ h => h) candLe_total candLe_trans _

theorem processFiles_paths_sublist (fs : List CandidateFile) :
    ∀ n t, List.Sublist ((processFiles fs n t).map (fun r => r.path))
        (fs.map (fun f => f.relativePath)) := by
  induction fs with
  | nil => intro n t; simp [processFiles]
  | cons f rest ih =>
    intro n t
    simp only [processFiles]
    split
    · simp
    split
    · simp
    split
    · exact (ih n t).cons _
    split
    · simp
    · rw [List.map_cons, List.map_cons]
      simp only [mkResource]
      exact (ih _ _).cons₂ _

/-- C4: the `resources` of every generated snapshot are sorted ascending
by `path` under the (code-point) lexicographic order `jsStringLe` that
models the `localeCompare` comparator; paths are built POSIX-style
(`toPosixPath` separator normalization), and the output is a pure function
of the file tree, hence reproducible. -/
theorem loadResources_sorted_by_path (root : List FSEntry) :
    (loadResources root).Pairwise (fun a b => jsStringLe a.path b.path = true) := by
  have hcand := sortedCandidates_pairwise root
  have hpaths : ((sortedCandidates root).map (fun f => f.relativePath)).Pairwise
      (fun a b => jsStringLe a b = true) := by
    rw [List.pairwise_map]
    exact hcand
  have hsub := processFiles_paths_sublist (sortedCandidates root) 0 0
  have hmap : ((loadResources root).map (fun r => r.path)).Pairwise
      (fun a b => jsStringLe a b = true) := hpaths.sublist hsub
  rw [List.pairwise_map] at hmap
  exact hmap

/-! ## Shim: loadContext fallback behavior (C5) -/

/-- C5: `loadProjectContext` always resolves: a network error, a non-ok
response, or an unparsable body each yield exactly the fallback context,
and an ok response with a parsed body yields the parsed artifact. -/
theorem loadProjectContextOnce_spec (fr : Except Unit HttpResponse) :
    (fr = Except.error () → loadProjectContextOnce fr =
      { generatedAt := none, summary := "No local project context is available.",
        resources := [] }) ∧
    (∀ resp, fr = Except.ok resp → resp.ok = false → loadProjectContextOnce fr =
      { generatedAt := none, summary := "No local project context is available.",
        resources := [] }) ∧
    (∀ resp, fr = Except.ok resp → resp.jsonBody = none → loadProjectContextOnce fr =
      { generatedAt := none, summary := "No local project context is available.",
        resources := [] }) ∧
    (∀ resp ctx, fr = Except.ok resp → resp.ok = true → resp.jsonBody = some ctx →
      loadProjectContextOnce fr = ctx) := by
  refine ⟨?_, ?_, ?_, ?_⟩
  · rintro rfl; rfl
  · rintro resp rfl hok
    simp [loadProjectContextOnce, hok, getFallbackProjectContext]
  · rintro resp rfl hbody
    by_cases hok : resp.ok = true
    · simp [loadProjectContextOnce, hok, hbody, getFallbackProjectContext]
    · simp only [Bool.not_eq_true] at hok
      simp [loadProjectContextOnce, hok, getFallbackProjectContext]
  · rintro resp ctx rfl hok hbody
    simp [loadProjectContextOnce, hok, hbody]

/-- Witness for C5 at a failed fetch, a 404-style response, and a
successful response. -/
theorem loadProjectContextOnce_spec_witness :
    loadProjectContextOnce (Except.error ()) =
      { generatedAt := none, summary := "No local project context is available.",
        resources := [] } ∧
    loadProjectContextOnce (Except.ok { ok := false, jsonBody := none }) =
      { generatedAt := none, summary := "No local project context is available.",
        resources := [] } ∧
    loadProjectContextOnce (Except.ok { ok := true, jsonBody := some ctxAB }) = ctxAB :=
  ⟨(loadProjectContextOnce_spec (Except.error ())).1 rfl,
   (loadProjectContextOnce_spec (Except.ok { ok := false, jsonBody := none })).2.1 _ rfl rfl,
   (loadProjectContextOnce_spec (Except.ok { ok := true, jsonBody := some ctxAB })).2.2.2
     _ _ rfl rfl rfl⟩

/-! ## Shim: getResource (C6) -/

/-- C6: `getProjectResource` never throws: when `find?` locates a resource
with exactly the requested `uri`, the result is that resource's stored
`text` in a single-content-item envelope; when no resource has the `uri`,
the result is the synthetic not-found payload, whose text literally
contains the requested `uri`. -/
theorem getProjectResource_spec (ctx : ProjectContext) (uri : String) :
    (∀ r, ctx.resources.find? (fun item => item.uri == uri) = some r →
      getProjectResource ctx uri =
        { contents := [{ uri := r.uri, mimeType := jsOrString r.mimeType "text/plain",
                         text := r.text }] } ∧ r ∈ ctx.resources ∧ r.uri = uri) ∧
    (ctx.resources.find? (fun item => item.uri == uri) = none →
      getProjectResource ctx uri =
        { contents := [{ uri := uri, mimeType := "text/plain",
                         text := jsConcat "Resource not found for uri: " uri }] } ∧
      (∀ r ∈ ctx.resources, r.uri ≠ uri) ∧
      ∃ pre, (jsConcat "Resource not found for uri: " uri).data = pre ++ uri.data) := by
  constructor
  · intro r hfind
    refine ⟨?_, List.mem_of_find?_eq_some hfind, ?_⟩
    · rw [getProjectResource, hfind]
    · have h := List.find?_some hfind
      simpa using h
  · intro hfind
    refine ⟨?_, ?_, ⟨("Resource not found for uri: " : String).data, rfl⟩⟩
    · rw [getProjectResource, hfind]
    · intro r hr
      have h := List.find?_eq_none.mp hfind r hr
      simpa using h

/-- Witness for C6 on a two-resource context: a present uri and an absent
uri. -/
theorem getProjectResource_spec_witness :
    getProjectResource ctxAB "file:///a.md" =
      { contents := [{ uri := "file:///a.md", mimeType := "text/markdown",
                       text := "alpha content" }] } ∧
    getProjectResource ctxAB "file:///nope" =
      { contents := [{ uri := "file:///nope", mimeType := "text/plain",
                       text := jsConcat "Resource not found for uri: " "file:///nope" }] } := by
  constructor
  · have h := ((getProjectResource_spec ctxAB "file:///a.md").1 resA (by decide)).1
    exact h.trans (by decide)
  · exact ((getProjectResource_spec ctxAB "file:///nope").2 (by decide)).1

/-! ## Shim: listResources (C7, C10) -/

theorem listProjectResources_empty_query (ctx : ProjectContext) (search : String)
    (hq : jsTrim (jsToLowerCase search) = "") :
    listProjectResources ctx search = ctx.resources.map projectResourceListing := by
  simp only [listProjectResources, hq]
  simp [List.filter_true]

theorem listProjectResources_filter_query (ctx : ProjectContext) (search : String)
    (hq : jsTrim (jsToLowerCase search) ≠ "") :
    listProjectResources ctx search
      = (ctx.resources.filter
          (fun r => matchesQuery (jsTrim (jsToLowerCase search)) r)).map
            projectResourceListing := by
  simp only [listProjectResources]
  congr 1
  apply List.filter_congr
  intro r _
  rw [if_neg hq]

theorem listProjectResources_no_match (ctx : ProjectContext) (search : String)
    (hq : jsTrim (jsToLowerCase search) ≠ "")
    (hmatch : ∀ r ∈ ctx.resources,
        matchesQuery (jsTrim (jsToLowerCase search)) r = false) :
    listProjectResources ctx search = [] := by
  rw [listProjectResources_filter_query ctx search hq]
  have hnil : ctx.resources.filter
      (fun r => matchesQuery (jsTrim (jsToLowerCase search)) r) = [] := by
    apply List.filter_eq_nil_iff.mpr
    intro r hr
    simp [hmatch r hr]
  rw [hnil, List.map_nil]

/-- C7: with a blank (empty after lower-casing and trimming) search string,
`listProjectResources` returns every resource in snapshot order, projected
to `{uri, name, description, mimeType}` with no text; with a non-blank
search it returns exactly the resources whose `uri`, `path`, or `name`
contains the lower-cased search text as a substring, in order and
projected; if nothing matches, the result is empty. -/
theorem listProjectResources_spec (ctx : ProjectContext) (search : String) :
    (jsTrim (jsToLowerCase search) = "" →
      listProjectResources ctx search = ctx.resources.map projectResourceListing) ∧
    (jsTrim (jsToLowerCase search) ≠ "" →
      listProjectResources ctx search
        = (ctx.resources.filter
            (fun r => matchesQuery (jsTrim (jsToLowerCase search)) r)).map
              projectResourceListing) ∧
    (jsTrim (jsToLowerCase search) ≠ "" →
      (∀ r ∈ ctx.resources,
          matchesQuery (jsTrim (jsToLowerCase search)) r = false) →
      listProjectResources ctx search = []) :=
  ⟨listProjectResources_empty_query ctx search,
   listProjectResources_filter_query ctx search,
   listProjectResources_no_match ctx search⟩

/-- Witness for C7: an empty search lists everything, a matching search
filters, a hopeless search returns nothing. -/
theorem listProjectResources_spec_witness :
    listProjectResources ctxAB "" = [projectResourceListing resA, projectResourceListing resB] ∧
    listProjectResources ctxAB "B.JS" = [projectResourceListing resB] ∧
    listProjectResources ctxAB "zzz" = [] := by
  refine ⟨?_, ?_, ?_⟩
  · rw [(listProjectResources_spec ctxAB "").1 (by decide)]
    decide
  · rw [(listProjectResources_spec ctxAB "B.JS").2.1 (by decide)]
    decide
  · exact (listProjectResources_spec ctxAB "zzz").2.2 (by decide) (by decide)

theorem toLower_whitespace (c : Char) (h : c.isWhitespace = true) : c.toLower = c := by
  simp [Char.isWhitespace] at h
  rcases h with ((rfl | rfl) | rfl) | rfl <;> decide

theorem dropWhile_all_true (p : Char → Bool) (l : List Char) (h : ∀ c ∈ l, p c = true) :
    l.dropWhile p = [] := by
  induction l with
  | nil => rfl
  | cons c cs ih =>
    rw [List.dropWhile_cons, if_pos (h c (List.mem_cons_self c cs))]
    exact ih (fun d hd => h d (List.mem_cons_of_mem c hd))

theorem jsTrim_all_whitespace (s : String) (h : ∀ c ∈ s.data, c.isWhitespace = true) :
    jsTrim s = "" := by
  rw [jsTrim, dropWhile_all_true _ _ h]
  rfl

theorem jsToLowerCase_whitespace (s : String) (h : ∀ c ∈ s.data, c.isWhitespace = true) :
    ∀ c ∈ (jsToLowerCase s).data, c.isWhitespace = true := by
  intro c hc
  simp only [jsToLowerCase] at hc
  obtain ⟨d, hd, rfl⟩ := List.mem_map.mp hc
  rw [toLower_whitespace d (h d hd)]
  exact h d hd

/-- C10: a search string consisting only of whitespace behaves exactly like
the empty search: the query is lower-cased and trimmed before matching, so
every resource is listed in snapshot order. -/
theorem listProjectResources_whitespace_eq_empty (ctx : ProjectContext) (search : String)
    (h : ∀ c ∈ search.data, c.isWhitespace = true) :
    listProjectResources ctx search = listProjectResources ctx "" := by
  have hq : jsTrim (jsToLowerCase search) = "" :=
    jsTrim_all_whitespace _ (jsToLowerCase_whitespace search h)
  rw [listProjectResources_empty_query ctx search hq,
    listProjectResources_empty_query ctx "" rfl]

/-- Witness for C10 with a space-and-tab search string. -/
theorem listProjectResources_whitespace_eq_empty_witness :
    listProjectResources ctxAB " \t " = listProjectResources ctxAB "" :=
  listProjectResources_whitespace_eq_empty ctxAB " \t " (by decide)

/-! ## Shim: single fetch per session (C9) -/

theorem runOps_memoized (fr : Except Unit HttpResponse) (c : ProjectContext) :
    ∀ ops (st : ShimState), st.projectContextPromise = some c →
      runOps fr st ops = (st, 0, ops.map (fun op => applyOp op c)) := by
  intro ops
  induction ops with
  | nil => intro st _; rfl
  | cons op ops ih =>
    intro st hst
    simp only [runOps, ensureContext, hst]
    rw [ih st hst]
    simp

/-- C9: in a session starting with an unset memo, the fetch chain runs
exactly once when at least one operation is invoked (zero times when none
is), and every operation observes the one stored result — each output is
the pure operation applied to `loadProjectContextOnce fr`. -/
theorem runOps_fetch_at_most_once (fr : Except Unit HttpResponse) (ops : List ShimOp) :
    (runOps fr ⟨none⟩ ops).2.1 = min ops.length 1 ∧
    (runOps fr ⟨none⟩ ops).2.2
      = ops.map (fun op => applyOp op (loadProjectContextOnce fr)) := by
  cases ops with
  | nil => exact ⟨rfl, rfl⟩
  | cons op ops =>
    have hrest := runOps_memoized fr (loadProjectContextOnce fr) ops
      ⟨some (loadProjectContextOnce fr)⟩ rfl
    simp only [runOps, ensureContext]
    rw [hrest]
    simp [Nat.min_eq_right, Nat.succ_le_succ]

/-! ## Generator idempotence: the output artifact is never collected (C8) -/

theorem collectList_append (pfx : String) (xs ys : List FSEntry) :
    collectList pfx (xs ++ ys) = collectList pfx xs ++ collectList pfx ys := by
  induction xs with
  | nil => simp [collectList]
  | cons e es ih => simp [collectList, ih]

theorem collectEntry_output_file (c : String) :
    collectEntry "public/" (.file "project-context.json" c) = [] := rfl

theorem collect_setFile_public (c : String) (ents : List FSEntry) :
    collectList "public/" (setFile "project-context.json" c ents)
      = collectList "public/" ents := by
  induction ents with
  | nil =>
    show collectList "public/" [.file "project-context.json" c] = collectList "public/" []
    simp [collectList, collectEntry_output_file c]
  | cons e rest ih =>
    cases e with
    | file n c₀ =>
      by_cases h : n = "project-context.json"
      · subst h
        simp only [setFile, if_pos rfl]
        simp [collectList, collectEntry_output_file]
      · simp only [setFile, if_neg h]
        simp [collectList, ih]
    | dir n es =>
      simp only [setFile]
      simp [collectList, ih]

theorem collectList_map_update (c : String) (root : List FSEntry) :
    collectList "" (root.map (fun e =>
      match e with
      | .dir n ents =>
        if n = "public" then .dir n (setFile "project-context.json" c ents)
        else .dir n ents
      | e => e)) = collectList "" root := by
  induction root with
  | nil => rfl
  | cons e rest ih =>
    rw [List.map_cons]
    simp only [collectList]
    rw [ih]
    congr 1
    cases e with
    | file n c₀ => rfl
    | dir n ents =>
      by_cases h : n = "public"
      · subst h
        simp only [if_pos rfl]
        have hig : IGNORED_DIRS.contains "public" = false := rfl
        simp only [collectEntry, hig, Bool.false_eq_true, if_false]
        have hpfx : jsConcat "" (jsConcat "public" "/") = "public/" := rfl
        rw [hpfx]
        exact collect_setFile_public c ents
      · simp only [if_neg h]

/-- C8: regenerating after `main` has written (or overwritten) the output
artifact `public/project-context.json` yields an identical `resources`
array: the artifact lies under `public/` and is filtered out by
`collectFiles`, so a second run on the otherwise unchanged tree reproduces
the first run's resources exactly. -/
theorem loadResources_unchanged_by_output (root : List FSEntry) (c : String) :
    loadResources (writeOutput root c) = loadResources root := by
  have hcoll : collectList "" (writeOutput root c) = collectList "" root := by
    rw [writeOutput]
    by_cases h : hasPublicDir root
    · rw [if_pos h]
      exact collectList_map_update c root
    · rw [if_neg h, collectList_append]
      have hnew : collectList "" [FSEntry.dir "public" [FSEntry.file "project-context.json" c]]
          = [] := rfl
      rw [hnew, List.append_nil]
  rw [loadResources, loadResources, sortedCandidates, sortedCandidates, hcoll]
